import Mathlib

/-!
Shallow embedding of the umple-bench state-machine verifier utilities.

Sources embedded:
* `tasks/umple-state-machine-door/tests/state_machine_graph.py` — namespace `StateMachineGraph`
  (extraction records a transition whenever the event returns `True`; the
  isomorphism check compares `supported_edges`, i.e. edge presence only).
* `tasks/umple-state-machine-door/tests/test_state_machine.py` — namespace `DoorTest`
  (same extraction policy; the isomorphism check gates on `total_edges` and then
  compares adjacency cells with exact multiplicities).
* `tasks/umple-state-machine-credit-card/tests/test_state_machine.py` — namespace
  `CreditCardTest` (extraction records a transition only when the event returns
  `True` and the state changed; its isomorphism checker is the `DoorTest` one).

States of a discovered machine are modelled by their indices `0 … state_count-1`:
the Python code manipulates enum members only through the positional index built
by `index = {state: idx for idx, state in enumerate(states)}`, so the index map
is the identity here.  A black-box candidate implementation is modelled by the
observations the extractor can make of it: for each `(source_state, event)`
probe, the state read before invoking the event, the value the event returned
(`none` models a non-boolean return) and the state read after.
-/

/-- Mirror of the `MachineModel` dataclass: state count, initial state index and
the adjacency matrix of transition multiplicities (a tuple of tuples in Python,
a list of lists here). -/
structure MachineModel where
  state_count : Nat
  initial_index : Nat
  adjacency : List (List Nat)
deriving DecidableEq

instance : Inhabited MachineModel := ⟨⟨0, 0, []⟩⟩

/-- Observable data of one `(source_state, event)` probe: the state read back
right after forcing the source state (`before`), the event's return value
(`none` models a non-boolean return) and the state read after the call. -/
structure ProbeOutcome where
  before : Nat
  result : Option Bool
  after : Nat
deriving DecidableEq

/-- A black-box candidate implementation as the extractor sees it: a state count,
the state observed on a freshly constructed instance, the discovered event
names, and the outcome of each `(source_state, event)` probe (each probe uses a
fresh instance, so outcomes depend only on the pair). -/
structure Machine where
  state_count : Nat
  initial : Nat
  events : List String
  probe : Nat → String → ProbeOutcome

/-- Failure kinds of `extract_machine_model`.  The Python code raises
`AssertionError("No states discovered")`, `KeyError` (when the initial state
read from a fresh instance is not a member of the enumeration) and
`AssertionError("Event … returned False but changed state from … to …")`;
the last one carries the event name and the two observed states. -/
inductive ExtractError where
  | noStatesDiscovered : ExtractError
  | initialStateNotFound : ExtractError
  | inconsistentEventContract : String → Nat → Nat → ExtractError
deriving DecidableEq

/-- One operation of the candidate class as `discover_event_names` inspects it:
its name, its parameter count (`1` means the `self`-only signature the filter
keeps) and what invoking it on a freshly constructed instance does: `none`
models a raised exception, `some none` a non-boolean return value and
`some (some b)` a boolean return. -/
structure OpSpec where
  name : String
  paramCount : Nat
  outcome : Option (Option Bool)
deriving DecidableEq

deriving instance DecidableEq for Except

/-- Matrix cell read `adj[i][j]` (total, with default `0`; the Python code only
ever reads cells that exist). -/
def getCell (adj : List (List Nat)) (i j : Nat) : Nat :=
  (adj.getD i []).getD j 0

/-- The update `adjacency[i][j] += 1`. -/
def bumpCell (adj : List (List Nat)) (i j : Nat) : List (List Nat) :=
  adj.set i ((adj.getD i []).set j ((adj.getD i []).getD j 0 + 1))

/-- Total transition count `sum(sum(row) for row in adjacency)`. -/
def totalList (adj : List (List Nat)) : Nat :=
  (adj.map List.sum).sum

/-- All ways of inserting `x` into a list; auxiliary for `allPerms`. -/
def insertEverywhere (x : α) : List α → List (List α)
  | [] => [[x]]
  | y :: ys => (x :: y :: ys) :: (insertEverywhere x ys).map (fun zs => y :: zs)

/-- Executable model of `itertools.permutations(l)`: the list of all orderings
of `l`.  Only membership matters to the verdicts proved below, because every
search over it is an `any`. -/
def allPerms : List α → List (List α)
  | [] => [[]]
  | x :: xs => (allPerms xs).flatMap (insertEverywhere x)

/-- Lookup in the dictionary built by `for ref_idx, cand_idx in zip(ref_rest,
perm): mapping[ref_idx] = cand_idx` (like `zip`, it stops at the shorter list;
keys are distinct in every use below, so first match is the dictionary entry). -/
def lookupZip : List Nat → List Nat → Nat → Nat
  | a :: as, b :: bs, i => if i = a then b else lookupZip as bs i
  | _, _, _ => 0

/-- The mapping dictionary `{ref_initial: cand_initial}` extended with
`zip(ref_rest, perm)`; `ref_initial` never occurs in `ref_rest`, so the pinned
entry wins. -/
def buildMapping (refInit candInit : Nat) (refRest perm : List Nat) (i : Nat) : Nat :=
  if i = refInit then candInit else lookupZip refRest perm i

/-- The nested `for i in range(n): for j in range(n):` comparison loop of
`isomorphic_up_to_renaming`, comparing cell `(i, j)` with the relabelled cell. -/
def cellsMatch (eR eC : List (List Nat)) (n : Nat) (f : Nat → Nat) : Bool :=
  (List.range n).all fun i => (List.range n).all fun j =>
    getCell eR i j == getCell eC (f i) (f j)

/-- The permutation search both isomorphism checkers share: try every ordering
of the non-initial candidate states against the non-initial reference states,
with the two initial states pinned to each other. -/
def permSearch (eR eC : List (List Nat)) (n refInit candInit : Nat) : Bool :=
  let refRest := (List.range n).filter (fun i => i != refInit)
  let candRest := (List.range n).filter (fun i => i != candInit)
  (allPerms candRest).any fun perm =>
    cellsMatch eR eC n (buildMapping refInit candInit refRest perm)

namespace StateMachineGraph

/-- The per-operation filter of `discover_event_names` (lines 99–115 of
`state_machine_graph.py`), with the string tests carried out on the underlying
character lists: skip names starting with `_`, excluded names, `get…FullName`
accessors and operations whose signature has more than the `self` parameter;
keep exactly the operations that return a boolean without raising. -/
def isEventOp (excluded : List String) (op : OpSpec) : Bool :=
  !("_".data.isPrefixOf op.name.data) &&
  !(excluded.contains op.name) &&
  !("get".data.isPrefixOf op.name.data && "FullName".data.isSuffixOf op.name.data) &&
  op.paramCount == 1 &&
  (match op.outcome with
   | some (some _) => true
   | _ => false)

/-- Mirror of `discover_event_names`: filter the operations, fail when nothing
qualifies, and return `sorted(set(events))`. -/
def discover_event_names (ops : List OpSpec) (excluded : List String) :
    Except String (List String) :=
  let events := (ops.filter (isEventOp excluded)).map OpSpec.name
  if events.isEmpty then Except.error ("No event methods discovered")
  else Except.ok (events.dedup.insertionSort (fun a b => a ≤ b))

/-- One probe of the extraction loop of `state_machine_graph.py` (lines
146–154) and of the door test (lines 171–179, identical branch structure): a
non-boolean result is skipped; a `True` result records
`adjacency[index[source]][index[after]] += 1` whether or not the state changed;
a `False` result that changed the state raises the contract violation. -/
def extractStep (adj : List (List Nat)) (source : Nat) (event : String)
    (out : ProbeOutcome) : Except ExtractError (List (List Nat)) :=
  match out.result with
  | none => Except.ok adj
  | some true => Except.ok (bumpCell adj source out.after)
  | some false =>
    if out.after = out.before then Except.ok adj
    else Except.error (ExtractError.inconsistentEventContract event out.before out.after)

/-- The `for source in states: for event in event_names:` loop, threading the
adjacency matrix and stopping at the first raised contract violation. -/
def extractLoop (m : Machine) : List (Nat × String) → List (List Nat) →
    Except ExtractError (List (List Nat))
  | [], adj => Except.ok adj
  | (s, e) :: rest, adj =>
    match extractStep adj s e (m.probe s e) with
    | Except.error err => Except.error err
    | Except.ok adj2 => extractLoop m rest adj2

/-- The probe schedule: all `(source_state, event)` pairs in loop order. -/
def probePairs (m : Machine) : List (Nat × String) :=
  (List.range m.state_count).flatMap fun s => m.events.map fun e => (s, e)

/-- Mirror of `extract_machine_model` (door policy): check the state list is
non-empty, look up the initial state of a fresh instance, run the probe loop on
an all-zero matrix and freeze the result into a `MachineModel`. -/
def extract_machine_model (m : Machine) : Except ExtractError MachineModel :=
  if m.state_count = 0 then Except.error ExtractError.noStatesDiscovered
  else if m.state_count ≤ m.initial then Except.error ExtractError.initialStateNotFound
  else
    match extractLoop m (probePairs m)
        (List.replicate m.state_count (List.replicate m.state_count 0)) with
    | Except.error err => Except.error err
    | Except.ok adj => Except.ok ⟨m.state_count, m.initial, adj⟩

/-- Mirror of `supported_edges`: collapse each multiplicity to `1` if positive,
else `0`. -/
def supported_edges (model : MachineModel) : List (List Nat) :=
  model.adjacency.map fun row => row.map fun count => if count > 0 then 1 else 0

/-- Mirror of `isomorphic_up_to_renaming` of `state_machine_graph.py` (lines
181–210): state counts must agree, then the permutation search compares the
`supported_edges` matrices — edge presence only, with no total-edge gate. -/
def isomorphic_up_to_renaming (reference candidate : MachineModel) : Bool × String :=
  if reference.state_count ≠ candidate.state_count then (false, "State count mismatch")
  else if permSearch (supported_edges reference) (supported_edges candidate)
      reference.state_count reference.initial_index candidate.initial_index then
    (true, "ok")
  else (false, "No graph isomorphism found with initial-state preservation")

/-- The inner `for ref_idx, cand_idx in enumerate(perm)` loop of
`machine_sets_isomorphic`: every paired reference/candidate model must pass the
single-machine check. -/
def pairsAllIso (refs cands : List MachineModel) : Nat → List Nat → Bool
  | _, [] => true
  | i, c :: rest =>
    (isomorphic_up_to_renaming (refs.getD i default) (cands.getD c default)).fst
      && pairsAllIso refs cands (i + 1) rest

/-- The `for perm in itertools.permutations(range(n))` search of
`machine_sets_isomorphic`. -/
def setSearch (refs cands : List MachineModel) : Bool :=
  (allPerms (List.range refs.length)).any fun perm => pairsAllIso refs cands 0 perm

/-- Mirror of `machine_sets_isomorphic` (lines 213–238): list lengths must
match, then some assignment of candidate models to reference models must make
every pair isomorphic. -/
def machine_sets_isomorphic (refs cands : List MachineModel) : Bool × String :=
  if refs.length ≠ cands.length then
    let a := refs.length
    let b := cands.length
    (false, "State-machine count mismatch: expected " ++ toString a ++ ", got "
      ++ toString b)
  else if setSearch refs cands then (true, "ok")
  else (false, "No isomorphic mapping found between state machines")

end StateMachineGraph

namespace DoorTest

/-- Mirror of `total_edges` of the door test (lines 189–190). -/
def total_edges (model : MachineModel) : Nat := totalList model.adjacency

/-- Mirror of `isomorphic_up_to_renaming` of the door test (lines 193–224),
also verbatim in the credit-card test (lines 225–256): state counts and total
edge counts must agree, then the permutation search compares the raw adjacency
matrices — multiplicities must match exactly. -/
def isomorphic_up_to_renaming (reference candidate : MachineModel) : Bool × String :=
  if reference.state_count ≠ candidate.state_count then (false, "State count mismatch")
  else if total_edges reference ≠ total_edges candidate then
    (false, "Transition count mismatch")
  else if permSearch reference.adjacency candidate.adjacency
      reference.state_count reference.initial_index candidate.initial_index then
    (true, "ok")
  else (false, "No graph isomorphism found with initial-state preservation")

end DoorTest

namespace CreditCardTest

/-- One probe of the extraction loop of the credit-card test (lines 184–200):
a non-boolean result is skipped; a `True` result records a transition only when
the state actually changed; a `False` result that changed the state raises the
contract violation. -/
def extractStep (adj : List (List Nat)) (source : Nat) (event : String)
    (out : ProbeOutcome) : Except ExtractError (List (List Nat)) :=
  match out.result with
  | none => Except.ok adj
  | some true =>
    if out.after = out.before then Except.ok adj
    else Except.ok (bumpCell adj source out.after)
  | some false =>
    if out.after = out.before then Except.ok adj
    else Except.error (ExtractError.inconsistentEventContract event out.before out.after)

end CreditCardTest

/-- Written from the claim's wording (claim C8), to be compared with the code's
`StateMachineGraph.isEventOp`: a kept operation is public (no leading
underscore), not excluded, not a `get…FullName` accessor, takes only `self`,
and returns a boolean without raising when invoked on a fresh instance. -/
def specQualifiesEvent (excluded : List String) (op : OpSpec) : Prop :=
  ¬ ("_".data <+: op.name.data) ∧
  op.name ∉ excluded ∧
  ¬ ("get".data <+: op.name.data ∧ "FullName".data <:+ op.name.data) ∧
  op.paramCount = 1 ∧
  ∃ b : Bool, op.outcome = some (some b)

/-! ## Basic list lemmas -/

theorem getD_map_of_lt (f : α → β) (l : List α) (i : Nat) (d : α) (d2 : β)
    (h : i < l.length) : (l.map f).getD i d2 = f (l.getD i d) := by
  induction l generalizing i with
  | nil => simp at h
  | cons a t ih =>
    cases i with
    | zero => simp
    | succ k => simpa using ih k (by simpa using h)

theorem getD_mem_of_lt (l : List α) (i : Nat) (d : α) (h : i < l.length) :
    l.getD i d ∈ l := by
  rw [List.getD_eq_getElem l d h]
  exact List.getElem_mem h

theorem getD_range_of_lt (n i : Nat) (h : i < n) : (List.range n).getD i 0 = i := by
  rw [List.getD_eq_getElem _ 0 (by simpa using h)]
  simp

theorem mem_filter_ne_iff (n k a : Nat) :
    a ∈ (List.range n).filter (fun i => i != k) ↔ a < n ∧ a ≠ k := by
  simp [List.mem_filter, List.mem_range]

theorem nodup_filter_ne (n k : Nat) :
    ((List.range n).filter (fun i => i != k)).Nodup :=
  (List.nodup_range n).filter _

theorem length_filter_ne (n k : Nat) (h : k < n) :
    ((List.range n).filter (fun i => i != k)).length = n - 1 := by
  induction n with
  | zero => omega
  | succ m ih =>
    rw [List.range_succ, List.filter_append]
    by_cases hk : k = m
    · have h1 : (List.range m).filter (fun i => i != k) = List.range m := by
        apply List.filter_eq_self.mpr
        intro a ha
        have ha2 : a < m := List.mem_range.mp ha
        simp only [bne_iff_ne]
        omega
      have h2 : ([m].filter fun i => i != k) = [] := by
        have h3 : (m != k) = false := by
          simp only [bne_eq_false_iff_eq]
          omega
        simp [h3]
      rw [h1, h2]
      simp only [List.append_nil, List.length_range]
      omega
    · have hk2 : k < m := by omega
      have h3 : (m != k) = true := by
        simp only [bne_iff_ne]
        omega
      have h2 : ([m].filter fun i => i != k) = [m] := by simp [h3]
      rw [h2]
      simp only [List.length_append, List.length_cons, List.length_nil]
      rw [ih hk2]
      omega

/-! ## Membership in `allPerms` -/

theorem perm_of_mem_insertEverywhere {x : α} {zs : List α} :
    ∀ {ys : List α}, zs ∈ insertEverywhere x ys → zs.Perm (x :: ys) := by
  intro ys
  induction ys generalizing zs with
  | nil =>
    intro h
    simp only [insertEverywhere, List.mem_singleton] at h
    subst h
    exact List.Perm.refl _
  | cons y t ih =>
    intro h
    simp only [insertEverywhere, List.mem_cons, List.mem_map] at h
    rcases h with h | ⟨ws, hws, rfl⟩
    · subst h
      exact List.Perm.refl _
    · exact (List.Perm.cons y (ih hws)).trans (List.Perm.swap x y t)

theorem cons_self_mem_insertEverywhere (x : α) (l : List α) :
    (x :: l) ∈ insertEverywhere x l := by
  cases l <;> simp [insertEverywhere]

theorem middle_mem_insertEverywhere (x : α) :
    ∀ (l₁ l₂ : List α), (l₁ ++ x :: l₂) ∈ insertEverywhere x (l₁ ++ l₂) := by
  intro l₁
  induction l₁ with
  | nil => intro l₂; simpa using cons_self_mem_insertEverywhere x l₂
  | cons a t ih =>
    intro l₂
    simp only [List.cons_append, insertEverywhere, List.mem_cons, List.mem_map]
    right
    exact ⟨t ++ x :: l₂, ih l₂, rfl⟩

theorem mem_allPerms {l zs : List α} : zs ∈ allPerms l ↔ zs.Perm l := by
  constructor
  · intro h
    induction l generalizing zs with
    | nil =>
      simp only [allPerms, List.mem_singleton] at h
      subst h
      exact List.Perm.refl _
    | cons x xs ih =>
      simp only [allPerms, List.mem_flatMap] at h
      obtain ⟨p, hp, hzs⟩ := h
      exact (perm_of_mem_insertEverywhere hzs).trans (List.Perm.cons x (ih hp))
  · intro h
    induction l generalizing zs with
    | nil =>
      simp [allPerms, List.perm_nil.mp h]
    | cons x xs ih =>
      have hx : x ∈ zs := h.mem_iff.mpr (List.mem_cons_self x xs)
      obtain ⟨l₁, l₂, rfl⟩ := List.append_of_mem hx
      have h2 : (l₁ ++ l₂).Perm xs := by
        have h3 : (x :: (l₁ ++ l₂)).Perm (x :: xs) := List.perm_middle.symm.trans h
        exact (List.perm_cons x).mp h3
      simp only [allPerms, List.mem_flatMap]
      exact ⟨l₁ ++ l₂, ih h2, middle_mem_insertEverywhere x l₁ l₂⟩

/-! ## The zipped mapping dictionary -/

theorem lookupZip_map (f : Nat → Nat) :
    ∀ (xs : List Nat) (i : Nat), i ∈ xs → lookupZip xs (xs.map f) i = f i := by
  intro xs
  induction xs with
  | nil => intro i hi; simp at hi
  | cons a t ih =>
    intro i hi
    by_cases h : i = a
    · subst h
      simp [lookupZip]
    · have h2 : i ∈ t := by
        rcases List.mem_cons.mp hi with h3 | h3
        · exact absurd h3 h
        · exact h3
      simp only [List.map_cons, lookupZip, if_neg h]
      exact ih i h2

theorem lookupZip_mem :
    ∀ (xs ys : List Nat) (i : Nat), i ∈ xs → xs.length ≤ ys.length →
      lookupZip xs ys i ∈ ys := by
  intro xs
  induction xs with
  | nil => intro ys i hi; simp at hi
  | cons a t ih =>
    intro ys i hi hlen
    cases ys with
    | nil => simp at hlen
    | cons b u =>
      by_cases h : i = a
      · simp [lookupZip, h]
      · have h2 : i ∈ t := by
          rcases List.mem_cons.mp hi with h3 | h3
          · exact absurd h3 h
          · exact h3
        simp only [lookupZip, if_neg h]
        exact List.mem_cons_of_mem b (ih u i h2 (by simpa using hlen))

theorem lookupZip_inj :
    ∀ (xs ys : List Nat) (i j : Nat), i ∈ xs → j ∈ xs → xs.length ≤ ys.length →
      ys.Nodup → lookupZip xs ys i = lookupZip xs ys j → i = j := by
  intro xs
  induction xs with
  | nil => intro ys i j hi; simp at hi
  | cons a t ih =>
    intro ys i j hi hj hlen hnd heq
    cases ys with
    | nil => simp at hlen
    | cons b u =>
      have hbu : b ∉ u := (List.nodup_cons.mp hnd).1
      by_cases h1 : i = a <;> by_cases h2 : j = a
      · rw [h1, h2]
      · have hj2 : j ∈ t := by
          rcases List.mem_cons.mp hj with h3 | h3
          · exact absurd h3 h2
          · exact h3
        rw [h1] at heq
        simp only [lookupZip, if_pos rfl, if_neg h2] at heq
        have hmem : lookupZip t u j ∈ u := lookupZip_mem t u j hj2 (by simpa using hlen)
        rw [← heq] at hmem
        exact absurd hmem hbu
      · have hi2 : i ∈ t := by
          rcases List.mem_cons.mp hi with h3 | h3
          · exact absurd h3 h1
          · exact h3
        rw [h2] at heq
        simp only [lookupZip, if_pos rfl, if_neg h1] at heq
        have hmem : lookupZip t u i ∈ u := lookupZip_mem t u i hi2 (by simpa using hlen)
        rw [heq] at hmem
        exact absurd hmem hbu
      · have hi2 : i ∈ t := by
          rcases List.mem_cons.mp hi with h3 | h3
          · exact absurd h3 h1
          · exact h3
        have hj2 : j ∈ t := by
          rcases List.mem_cons.mp hj with h3 | h3
          · exact absurd h3 h2
          · exact h3
        simp only [lookupZip, if_neg h1, if_neg h2] at heq
        exact ih u i j hi2 hj2 (by simpa using hlen) (List.nodup_cons.mp hnd).2 heq

/-! ## The permutation search -/

theorem cellsMatch_iff (eR eC : List (List Nat)) (n : Nat) (f : Nat → Nat) :
    cellsMatch eR eC n f = true ↔
      ∀ i, i < n → ∀ j, j < n → getCell eR i j = getCell eC (f i) (f j) := by
  simp [cellsMatch, List.all_eq_true, List.mem_range]

theorem permSearch_to_bijection {eR eC : List (List Nat)} {n ri ci : Nat}
    (hri : ri < n) (hci : ci < n)
    (h : permSearch eR eC n ri ci = true) :
    ∃ f : Nat → Nat, f ri = ci ∧ (∀ i, i < n → f i < n) ∧
      (∀ i, i < n → ∀ j, j < n → f i = f j → i = j) ∧
      (∀ i, i < n → ∀ j, j < n → getCell eR i j = getCell eC (f i) (f j)) := by
  simp only [permSearch, List.any_eq_true] at h
  obtain ⟨perm, hmem, hmatch⟩ := h
  have hperm : perm.Perm ((List.range n).filter (fun i => i != ci)) :=
    mem_allPerms.mp hmem
  have hpermlen : perm.length = n - 1 := by
    rw [hperm.length_eq]
    exact length_filter_ne n ci hci
  have hreflen : ((List.range n).filter (fun i => i != ri)).length = n - 1 :=
    length_filter_ne n ri hri
  have hlen : ((List.range n).filter (fun i => i != ri)).length ≤ perm.length := by
    omega
  have hpermnd : perm.Nodup := hperm.nodup_iff.mpr (nodup_filter_ne n ci)
  have hmemcand : ∀ x ∈ perm, x < n ∧ x ≠ ci := by
    intro x hx
    exact (mem_filter_ne_iff n ci x).mp (hperm.mem_iff.mp hx)
  refine ⟨buildMapping ri ci ((List.range n).filter (fun i => i != ri)) perm,
    by simp [buildMapping], ?_, ?_, ?_⟩
  · intro i hi
    by_cases hir : i = ri
    · simpa [buildMapping, hir] using hci
    · have him : i ∈ (List.range n).filter (fun i => i != ri) :=
        (mem_filter_ne_iff n ri i).mpr ⟨hi, hir⟩
      simp only [buildMapping, if_neg hir]
      exact (hmemcand _ (lookupZip_mem _ perm i him hlen)).1
  · intro i hi j hj hij
    by_cases hir : i = ri <;> by_cases hjr : j = ri
    · rw [hir, hjr]
    · exfalso
      have hjm : j ∈ (List.range n).filter (fun i => i != ri) :=
        (mem_filter_ne_iff n ri j).mpr ⟨hj, hjr⟩
      simp only [buildMapping, if_pos hir, if_neg hjr] at hij
      exact (hmemcand _ (lookupZip_mem _ perm j hjm hlen)).2 hij.symm
    · exfalso
      have him : i ∈ (List.range n).filter (fun i => i != ri) :=
        (mem_filter_ne_iff n ri i).mpr ⟨hi, hir⟩
      simp only [buildMapping, if_neg hir, if_pos hjr] at hij
      exact (hmemcand _ (lookupZip_mem _ perm i him hlen)).2 hij
    · have him : i ∈ (List.range n).filter (fun i => i != ri) :=
        (mem_filter_ne_iff n ri i).mpr ⟨hi, hir⟩
      have hjm : j ∈ (List.range n).filter (fun i => i != ri) :=
        (mem_filter_ne_iff n ri j).mpr ⟨hj, hjr⟩
      simp only [buildMapping, if_neg hir, if_neg hjr] at hij
      exact lookupZip_inj _ perm i j him hjm hlen hpermnd hij
  · exact (cellsMatch_iff _ _ _ _).mp hmatch

theorem permSearch_of_bijection {eR eC : List (List Nat)} {n ri ci : Nat}
    (f g : Nat → Nat) (hri : ri < n) (hci : ci < n)
    (hf : ∀ i, i < n → f i < n) (hg : ∀ i, i < n → g i < n)
    (hgf : ∀ i, i < n → g (f i) = i) (hfg : ∀ i, i < n → f (g i) = i)
    (hfi : f ri = ci)
    (hcells : ∀ i, i < n → ∀ j, j < n → getCell eR i j = getCell eC (f i) (f j)) :
    permSearch eR eC n ri ci = true := by
  simp only [permSearch, List.any_eq_true]
  refine ⟨((List.range n).filter (fun i => i != ri)).map f, mem_allPerms.mpr ?_, ?_⟩
  · have hnd : (((List.range n).filter (fun i => i != ri)).map f).Nodup := by
      apply List.Nodup.map_on ?_ (nodup_filter_ne n ri)
      intro x hx y hy hxy
      have hx2 := (mem_filter_ne_iff n ri x).mp hx
      have hy2 := (mem_filter_ne_iff n ri y).mp hy
      have h3 := congrArg g hxy
      rwa [hgf x hx2.1, hgf y hy2.1] at h3
    apply (List.perm_ext_iff_of_nodup hnd (nodup_filter_ne n ci)).mpr
    intro a
    simp only [List.mem_map]
    constructor
    · rintro ⟨x, hx, rfl⟩
      have hx2 := (mem_filter_ne_iff n ri x).mp hx
      apply (mem_filter_ne_iff n ci (f x)).mpr
      refine ⟨hf x hx2.1, ?_⟩
      intro heq
      apply hx2.2
      have h5 : f x = f ri := by rw [hfi]; exact heq
      have h7 := congrArg g h5
      rwa [hgf x hx2.1, hgf ri hri] at h7
    · intro ha
      have ha2 := (mem_filter_ne_iff n ci a).mp ha
      refine ⟨g a, (mem_filter_ne_iff n ri (g a)).mpr ⟨hg a ha2.1, ?_⟩, hfg a ha2.1⟩
      intro hEq
      apply ha2.2
      rw [← hfg a ha2.1, hEq, hfi]
  · apply (cellsMatch_iff _ _ _ _).mpr
    intro i hi j hj
    have hmap : ∀ x, x < n →
        buildMapping ri ci ((List.range n).filter (fun i => i != ri))
          (((List.range n).filter (fun i => i != ri)).map f) x = f x := by
      intro x hx
      by_cases hxr : x = ri
      · subst hxr
        simp [buildMapping, hfi]
      · have hxm : x ∈ (List.range n).filter (fun i => i != ri) :=
          (mem_filter_ne_iff n ri x).mpr ⟨hx, hxr⟩
        simp only [buildMapping, if_neg hxr]
        exact lookupZip_map f _ x hxm
    rw [hmap i hi, hmap j hj]
    exact hcells i hi j hj

/-! ## Matrix cell and edge-count lemmas -/

theorem getCell_map_map (f : Nat → Nat) (adj : List (List Nat)) (i j : Nat)
    (hi : i < adj.length) (hj : j < (adj.getD i []).length) :
    getCell (adj.map (fun row => row.map f)) i j = f (getCell adj i j) := by
  unfold getCell
  rw [getD_map_of_lt (fun row => row.map f) adj i [] [] hi]
  exact getD_map_of_lt f (adj.getD i []) j 0 0 hj

theorem sum_set_getD_add_one :
    ∀ (row : List Nat) (j : Nat), j < row.length →
      (row.set j (row.getD j 0 + 1)).sum = row.sum + 1 := by
  intro row
  induction row with
  | nil => intro j hj; simp at hj
  | cons x t ih =>
    intro j hj
    cases j with
    | zero =>
      simp only [List.getD_cons_zero, List.set_cons_zero, List.sum_cons]
      omega
    | succ k =>
      have hk : k < t.length := by simpa using hj
      simp only [List.getD_cons_succ, List.set_cons_succ, List.sum_cons]
      rw [ih k hk]
      omega

theorem totalList_bumpCell :
    ∀ (adj : List (List Nat)) (i j : Nat), i < adj.length →
      j < (adj.getD i []).length →
      totalList (bumpCell adj i j) = totalList adj + 1 := by
  intro adj
  induction adj with
  | nil => intro i j hi; simp at hi
  | cons row rest ih =>
    intro i j hi hj
    cases i with
    | zero =>
      simp only [bumpCell, List.getD_cons_zero, List.set_cons_zero]
      simp only [totalList, List.map_cons, List.sum_cons]
      rw [sum_set_getD_add_one row j (by simpa using hj)]
      omega
    | succ k =>
      have hk : k < rest.length := by simpa using hi
      have hj2 : j < (rest.getD k []).length := by simpa using hj
      have hstep : bumpCell (row :: rest) (k + 1) j = row :: bumpCell rest k j := by
        simp [bumpCell]
      rw [hstep]
      simp only [totalList, List.map_cons, List.sum_cons]
      have h5 := ih k j hk hj2
      simp only [totalList] at h5
      rw [h5]
      omega

/-! ## Set-matcher lemmas -/

theorem rangeMap_getD_self (d : α) :
    ∀ (l : List α), (List.range l.length).map (fun i => l.getD i d) = l := by
  intro l
  induction l with
  | nil => simp
  | cons x t ih =>
    rw [List.length_cons, List.range_succ_eq_map, List.map_cons, List.map_map]
    simp only [List.getD_cons_zero, Function.comp_def, Nat.succ_eq_add_one,
      List.getD_cons_succ]
    rw [ih]

theorem pairsAllIso_iff (refs cands : List MachineModel) :
    ∀ (l : List Nat) (k : Nat),
      StateMachineGraph.pairsAllIso refs cands k l = true ↔
        ∀ j, j < l.length →
          (StateMachineGraph.isomorphic_up_to_renaming (refs.getD (k + j) default)
            (cands.getD (l.getD j 0) default)).fst = true := by
  intro l
  induction l with
  | nil =>
    intro k
    simp [StateMachineGraph.pairsAllIso]
  | cons c rest ih =>
    intro k
    simp only [StateMachineGraph.pairsAllIso, Bool.and_eq_true]
    constructor
    · rintro ⟨h1, h2⟩ j hj
      cases j with
      | zero => simpa using h1
      | succ j2 =>
        have h3 := (ih (k + 1)).mp h2 j2 (by simpa using hj)
        have harith : k + 1 + j2 = k + (j2 + 1) := by omega
        rw [harith] at h3
        simpa using h3
    · intro h
      refine ⟨by simpa using h 0 (by simp), (ih (k + 1)).mpr ?_⟩
      intro j hj
      have h3 := h (j + 1) (by simpa using hj)
      have harith : k + (j + 1) = k + 1 + j := by omega
      rw [harith] at h3
      simpa using h3

theorem perm_index_list (d : α) :
    ∀ {l₁ l₂ : List α}, l₁.Perm l₂ →
      ∃ σ : List Nat, σ.Perm (List.range l₁.length) ∧
        ∀ i, i < l₁.length → l₁.getD i d = l₂.getD (σ.getD i 0) d := by
  intro l₁ l₂ h
  induction h with
  | nil =>
    refine ⟨[], by simp, ?_⟩
    intro i hi
    simp at hi
  | cons x hsub ih =>
    obtain ⟨σ, hσ, hidx⟩ := ih
    refine ⟨0 :: σ.map Nat.succ, ?_, ?_⟩
    · rw [List.length_cons, List.range_succ_eq_map]
      exact List.Perm.cons 0 (hσ.map Nat.succ)
    · intro i hi
      cases i with
      | zero => simp
      | succ k =>
        rw [List.length_cons] at hi
        have hk4 : k < _ := Nat.lt_of_succ_lt_succ hi
        have hk2 : k < σ.length := by
          rw [hσ.length_eq, List.length_range]
          exact hk4
        simp only [List.getD_cons_succ]
        rw [getD_map_of_lt Nat.succ σ k 0 0 hk2]
        simp only [Nat.succ_eq_add_one, List.getD_cons_succ]
        exact hidx k hk4
  | swap x y l =>
    refine ⟨1 :: 0 :: (List.range l.length).map (fun i => i + 2), ?_, ?_⟩
    · have hr : List.range (l.length + 1 + 1) =
          0 :: 1 :: (List.range l.length).map (fun i => i + 2) := by
        rw [List.range_succ_eq_map, List.range_succ_eq_map, List.map_cons, List.map_map]
        rfl
      rw [List.length_cons, List.length_cons, hr]
      exact List.Perm.swap 0 1 _
    · intro i hi
      cases i with
      | zero => simp
      | succ i1 =>
        cases i1 with
        | zero => simp
        | succ k =>
          rw [List.length_cons, List.length_cons] at hi
          have hk : k < l.length := Nat.lt_of_succ_lt_succ (Nat.lt_of_succ_lt_succ hi)
          simp only [List.getD_cons_succ]
          rw [getD_map_of_lt (fun i => i + 2) (List.range l.length) k 0 0
            (by simpa using hk)]
          rw [getD_range_of_lt l.length k hk]
          simp [List.getD_cons_succ]
  | trans h1 h2 ih1 ih2 =>
    obtain ⟨σ₁, hσ₁, hidx₁⟩ := ih1
    obtain ⟨σ₂, hσ₂, hidx₂⟩ := ih2
    have hlen12 := h1.length_eq
    refine ⟨σ₁.map (fun k => σ₂.getD k 0), ?_, ?_⟩
    · have hmap := rangeMap_getD_self 0 σ₂
      rw [hσ₂.length_eq, List.length_range, ← hlen12] at hmap
      have h3 := hσ₁.map (fun k => σ₂.getD k 0)
      rw [hmap] at h3
      have h4 := h3.trans hσ₂
      rw [← hlen12] at h4
      exact h4
    · intro i hi
      have hi2 : i < σ₁.length := by
        rw [hσ₁.length_eq, List.length_range]
        exact hi
      rw [getD_map_of_lt (fun k => σ₂.getD k 0) σ₁ i 0 0 hi2]
      have hm : σ₁.getD i 0 ∈ σ₁ := getD_mem_of_lt σ₁ i 0 hi2
      have hm2 := List.mem_range.mp (hσ₁.mem_iff.mp hm)
      rw [hidx₁ i hi]
      refine hidx₂ (σ₁.getD i 0) ?_
      rw [← hlen12]
      exact hm2

theorem setSearch_transport {refs cands refs2 cands2 : List MachineModel}
    (hr : refs.Perm refs2) (hc : cands.Perm cands2)
    (hlen : cands.length = refs.length)
    (h : StateMachineGraph.setSearch refs cands = true) :
    StateMachineGraph.setSearch refs2 cands2 = true := by
  simp only [StateMachineGraph.setSearch, List.any_eq_true] at h ⊢
  obtain ⟨π, hπmem, hπ⟩ := h
  have hπperm : π.Perm (List.range refs.length) := mem_allPerms.mp hπmem
  have hπlen : π.length = refs.length := by
    rw [hπperm.length_eq, List.length_range]
  have hcheck := (pairsAllIso_iff refs cands π 0).mp hπ
  have hl12 : refs.length = refs2.length := hr.length_eq
  have hlc12 : cands.length = cands2.length := hc.length_eq
  obtain ⟨σr, hσr, hidxr⟩ := perm_index_list (default : MachineModel) hr.symm
  obtain ⟨σc, hσc, hidxc⟩ := perm_index_list (default : MachineModel) hc
  have hσrlen : σr.length = refs2.length := by
    rw [hσr.length_eq, List.length_range]
  have hσclen : σc.length = cands.length := by
    rw [hσc.length_eq, List.length_range]
  refine ⟨σr.map (fun k => σc.getD (π.getD k 0) 0), mem_allPerms.mpr ?_, ?_⟩
  · have h3 := hσr.map (fun k => σc.getD (π.getD k 0) 0)
    have hid : (List.range refs2.length).map (fun k => σc.getD (π.getD k 0) 0)
        = (((List.range refs2.length).map (fun k => π.getD k 0)).map
            (fun k => σc.getD k 0)) := by
      rw [List.map_map]
      rfl
    have hpid : (List.range refs2.length).map (fun k => π.getD k 0) = π := by
      have h7 := rangeMap_getD_self 0 π
      rw [hπlen, hl12] at h7
      exact h7
    rw [hid, hpid] at h3
    have h8 : (π.map (fun k => σc.getD k 0)).Perm
        ((List.range refs.length).map (fun k => σc.getD k 0)) :=
      hπperm.map _
    have h9 : (List.range refs.length).map (fun k => σc.getD k 0) = σc := by
      have h10 := rangeMap_getD_self 0 σc
      rw [hσclen, hlen] at h10
      exact h10
    rw [h9] at h8
    have h11 : σc.Perm (List.range refs2.length) := by
      have h12 := hσc
      rw [hlen, hl12] at h12
      exact h12
    exact h3.trans (h8.trans h11)
  · apply (pairsAllIso_iff refs2 cands2 _ 0).mpr
    intro j hj
    rw [List.length_map, hσrlen] at hj
    have hj2 : j < σr.length := by rw [hσrlen]; exact hj
    rw [getD_map_of_lt (fun k => σc.getD (π.getD k 0) 0) σr j 0 0 hj2]
    have hks : σr.getD j 0 ∈ σr := getD_mem_of_lt σr j 0 hj2
    have hk : σr.getD j 0 < refs2.length := List.mem_range.mp (hσr.mem_iff.mp hks)
    have hk2 : σr.getD j 0 < π.length := by rw [hπlen, hl12]; exact hk
    have hπk : π.getD (σr.getD j 0) 0 ∈ π := getD_mem_of_lt π (σr.getD j 0) 0 hk2
    have hπk2 : π.getD (σr.getD j 0) 0 < refs.length :=
      List.mem_range.mp (hπperm.mem_iff.mp hπk)
    have hπk3 : π.getD (σr.getD j 0) 0 < cands.length := by omega
    have hrefs : refs2.getD (0 + j) default = refs.getD (σr.getD j 0) default := by
      rw [Nat.zero_add]
      exact hidxr j hj
    have hcands : cands.getD (π.getD (σr.getD j 0) 0) default
        = cands2.getD (σc.getD (π.getD (σr.getD j 0) 0) 0) default :=
      hidxc (π.getD (σr.getD j 0) 0) hπk3
    rw [hrefs, ← hcands]
    have h6 := hcheck (σr.getD j 0) (by rw [hπlen]; rw [← hl12] at hk; exact hk)
    rw [Nat.zero_add] at h6
    exact h6

/-! ## Event-discovery lemmas -/

theorem isPrefixOf_eq_true_iff {l₁ l₂ : List Char} :
    l₁.isPrefixOf l₂ = true ↔ l₁ <+: l₂ :=
  List.isPrefixOf_iff_prefix

theorem isEventOp_iff (excluded : List String) (op : OpSpec) :
    StateMachineGraph.isEventOp excluded op = true ↔ specQualifiesEvent excluded op := by
  obtain ⟨nm, pc, oc⟩ := op
  have hmatch : ((match oc with
      | some (some _) => true
      | _ => false) = true) ↔ ∃ b : Bool, oc = some (some b) := by
    rcases oc with _ | o
    · simp
    · rcases o with _ | b
      · simp
      · simp
  unfold StateMachineGraph.isEventOp specQualifiesEvent
  constructor
  · intro h
    simp only [Bool.and_eq_true] at h
    obtain ⟨⟨⟨⟨h1, h2⟩, h3⟩, h4⟩, h5⟩ := h
    refine ⟨?_, ?_, ?_, by simpa using h4, hmatch.mp h5⟩
    · intro hp
      rw [← isPrefixOf_eq_true_iff] at hp
      rw [hp] at h1
      simp at h1
    · intro hm
      have hc : excluded.contains nm = true := by simpa using hm
      rw [hc] at h2
      simp at h2
    · rintro ⟨hp, hs⟩
      rw [← isPrefixOf_eq_true_iff] at hp
      rw [← List.isSuffixOf_iff_suffix] at hs
      rw [hp, hs] at h3
      simp at h3
  · rintro ⟨g1, g2, g3, g4, g5⟩
    simp only [Bool.and_eq_true]
    refine ⟨⟨⟨⟨?_, ?_⟩, ?_⟩, by simpa using g4⟩, hmatch.mpr g5⟩
    · rw [Bool.not_eq_true']
      apply Bool.eq_false_iff.mpr
      intro hb
      exact g1 (isPrefixOf_eq_true_iff.mp hb)
    · rw [Bool.not_eq_true']
      apply Bool.eq_false_iff.mpr
      intro hb
      exact g2 (by simpa using hb)
    · rw [Bool.not_eq_true']
      apply Bool.eq_false_iff.mpr
      intro hb
      rw [Bool.and_eq_true] at hb
      exact g3 ⟨isPrefixOf_eq_true_iff.mp hb.1, List.isSuffixOf_iff_suffix.mp hb.2⟩

theorem discover_event_names_mem (ops : List OpSpec) (excluded : List String)
    (l : List String)
    (hok : StateMachineGraph.discover_event_names ops excluded = Except.ok l)
    (nm : String) :
    nm ∈ l ↔ ∃ op, op ∈ ops ∧ op.name = nm ∧ specQualifiesEvent excluded op := by
  unfold StateMachineGraph.discover_event_names at hok
  by_cases he : ((ops.filter (StateMachineGraph.isEventOp excluded)).map OpSpec.name).isEmpty
  · rw [if_pos he] at hok
    exact absurd hok (by simp)
  · rw [if_neg he] at hok
    rw [← Except.ok.inj hok]
    rw [List.mem_insertionSort, List.mem_dedup]
    simp only [List.mem_map, List.mem_filter]
    constructor
    · rintro ⟨op, ⟨hmem, hq⟩, rfl⟩
      exact ⟨op, hmem, rfl, (isEventOp_iff excluded op).mp hq⟩
    · rintro ⟨op, hmem, rfl, hq⟩
      exact ⟨op, ⟨hmem, (isEventOp_iff excluded op).mpr hq⟩, rfl⟩

theorem discover_event_names_error_iff (ops : List OpSpec) (excluded : List String) :
    StateMachineGraph.discover_event_names ops excluded
        = Except.error ("No event methods discovered") ↔
      ¬ ∃ op, op ∈ ops ∧ specQualifiesEvent excluded op := by
  unfold StateMachineGraph.discover_event_names
  by_cases he : ((ops.filter (StateMachineGraph.isEventOp excluded)).map OpSpec.name).isEmpty
  · rw [if_pos he]
    constructor
    · intro _
      rw [List.isEmpty_iff, List.map_eq_nil_iff, List.filter_eq_nil_iff] at he
      rintro ⟨op, hmem, hq⟩
      exact he op hmem ((isEventOp_iff excluded op).mpr hq)
    · intro _
      rfl
  · rw [if_neg he]
    constructor
    · intro h
      exact Except.noConfusion h
    · intro hno
      exfalso
      apply he
      rw [List.isEmpty_iff, List.map_eq_nil_iff, List.filter_eq_nil_iff]
      intro op hmem hq
      exact hno ⟨op, hmem, (isEventOp_iff excluded op).mp hq⟩

/-! ## Extraction-loop lemmas -/

theorem extractStep_error_shape (adj : List (List Nat)) (s : Nat) (e : String)
    (out : ProbeOutcome) (err : ExtractError) :
    StateMachineGraph.extractStep adj s e out = Except.error err →
    err = ExtractError.inconsistentEventContract e out.before out.after := by
  unfold StateMachineGraph.extractStep
  obtain ⟨ob, ores, oa⟩ := out
  rcases ores with _ | b
  · intro h
    exact absurd h (by simp)
  · rcases b with _ | _
    · by_cases hab : oa = ob
      · simp only [hab, if_pos rfl]
        intro h
        exact absurd h (by simp)
      · simp only [if_neg hab]
        intro h
        simpa using (Except.error.inj h).symm
    · intro h
      exact absurd h (by simp)

theorem extractLoop_error_of_bad (m : Machine) :
    ∀ (pairs : List (Nat × String)) (adj : List (List Nat)) (s : Nat) (e : String),
      (s, e) ∈ pairs →
      (m.probe s e).result = some false →
      (m.probe s e).after ≠ (m.probe s e).before →
      ∃ ev b a, StateMachineGraph.extractLoop m pairs adj
        = Except.error (ExtractError.inconsistentEventContract ev b a) := by
  intro pairs
  induction pairs with
  | nil =>
    intro adj s e hmem
    simp at hmem
  | cons p rest ih =>
    intro adj s e hmem hres hne
    obtain ⟨s0, e0⟩ := p
    by_cases hbad : (m.probe s0 e0).result = some false ∧
        (m.probe s0 e0).after ≠ (m.probe s0 e0).before
    · have hstep : StateMachineGraph.extractStep adj s0 e0 (m.probe s0 e0)
          = Except.error (ExtractError.inconsistentEventContract e0
              (m.probe s0 e0).before (m.probe s0 e0).after) := by
        unfold StateMachineGraph.extractStep
        simp only [hbad.1]
        rw [if_neg hbad.2]
      refine ⟨e0, (m.probe s0 e0).before, (m.probe s0 e0).after, ?_⟩
      unfold StateMachineGraph.extractLoop
      rw [hstep]
    · have hok : ∃ adj2, StateMachineGraph.extractStep adj s0 e0 (m.probe s0 e0)
          = Except.ok adj2 := by
        unfold StateMachineGraph.extractStep
        rcases hr : (m.probe s0 e0).result with _ | b
        · exact ⟨adj, rfl⟩
        · rcases b with _ | _
          · have hab : (m.probe s0 e0).after = (m.probe s0 e0).before := by
              by_contra hne2
              exact hbad ⟨hr, hne2⟩
            rw [if_pos hab]
            exact ⟨adj, rfl⟩
          · exact ⟨bumpCell adj s0 (m.probe s0 e0).after, rfl⟩
      obtain ⟨adj2, hstep⟩ := hok
      have hmem2 : (s, e) ∈ rest := by
        rcases List.mem_cons.mp hmem with h2 | h2
        · exfalso
          injection h2 with h2a h2b
          subst h2a
          subst h2b
          exact hbad ⟨hres, hne⟩
        · exact h2
      unfold StateMachineGraph.extractLoop
      rw [hstep]
      exact ih adj2 s e hmem2 hres hne

/-! ## Claim theorems -/

/-- C1 counterexample: on the door-task extractor (`state_machine_graph.py`
lines 146–154, also the door test lines 171–179) a probe whose event returns
`True` and leaves the state unchanged (`after == before`) DOES increment an
adjacency cell: a one-state machine whose only event returns `True` without
changing state is extracted with the self-loop `adjacency = [[1]]`, refuting
the claim that no transition is recorded when `after == before`. -/
theorem extract_same_state_counterexample :
    StateMachineGraph.extract_machine_model
        ⟨1, 0, ["e"], fun _ _ => ⟨0, some true, 0⟩⟩ = Except.ok ⟨1, 0, [[1]]⟩ ∧
    ((⟨1, 0, ["e"], fun _ _ => ⟨0, some true, 0⟩⟩ : Machine).probe 0 "e").after
      = ((⟨1, 0, ["e"], fun _ _ => ⟨0, some true, 0⟩⟩ : Machine).probe 0 "e").before :=
  ⟨by decide, rfl⟩

/-- C1 (amended): extraction policy on a probe with `after == before` differs by
variant.  The credit-card extractor records nothing regardless of the boolean
result; the door-task extractors (`state_machine_graph.py` and the door test)
increment `adjacency[source][after]` whenever the event returns `True` — even
when `after == before`, recording a self-loop — and record nothing for `False`
or non-boolean results when the state is unchanged. -/
theorem extraction_same_state_policy :
    (∀ (adj : List (List Nat)) (s : Nat) (e : String) (out : ProbeOutcome),
        out.after = out.before →
        CreditCardTest.extractStep adj s e out = Except.ok adj) ∧
    (∀ (adj : List (List Nat)) (s : Nat) (e : String) (out : ProbeOutcome),
        out.after = out.before → out.result ≠ some true →
        StateMachineGraph.extractStep adj s e out = Except.ok adj) ∧
    (∀ (adj : List (List Nat)) (s : Nat) (e : String) (out : ProbeOutcome),
        out.result = some true →
        StateMachineGraph.extractStep adj s e out
          = Except.ok (bumpCell adj s out.after)) := by
  refine ⟨?_, ?_, ?_⟩
  · intro adj s e out hab
    rcases hr : out.result with _ | b
    · simp [CreditCardTest.extractStep, hr]
    · rcases b with _ | _
      · simp [CreditCardTest.extractStep, hr, hab]
      · simp [CreditCardTest.extractStep, hr, hab]
  · intro adj s e out hab hne
    rcases hr : out.result with _ | b
    · simp [StateMachineGraph.extractStep, hr]
    · rcases b with _ | _
      · simp [StateMachineGraph.extractStep, hr, hab]
      · exact absurd hr hne
  · intro adj s e out hres
    simp [StateMachineGraph.extractStep, hres]

/-- C1 witness: the amended policy evaluated on concrete probes. -/
theorem extraction_same_state_policy_witness :
    CreditCardTest.extractStep [[0]] 0 "e" ⟨0, some true, 0⟩ = Except.ok [[0]] ∧
    StateMachineGraph.extractStep [[0]] 0 "e" ⟨0, some false, 0⟩ = Except.ok [[0]] ∧
    StateMachineGraph.extractStep [[0]] 0 "e" ⟨0, some true, 0⟩
      = Except.ok (bumpCell [[0]] 0 0) :=
  ⟨extraction_same_state_policy.1 [[0]] 0 "e" ⟨0, some true, 0⟩ rfl,
   extraction_same_state_policy.2.1 [[0]] 0 "e" ⟨0, some false, 0⟩ rfl (by decide),
   extraction_same_state_policy.2.2 [[0]] 0 "e" ⟨0, some true, 0⟩ rfl⟩

/-- C2 counterexample: the `state_machine_graph.py` checker accepts two
one-state models whose self-loop multiplicities differ (2 vs 1), although no
index bijection makes the adjacency cells equal as integers. -/
theorem iso_presence_only_counterexample :
    StateMachineGraph.isomorphic_up_to_renaming ⟨1, 0, [[2]]⟩ ⟨1, 0, [[1]]⟩
      = (true, "ok") ∧
    ¬ ∃ f : Nat → Nat, ∀ i, i < 1 → ∀ j, j < 1 →
        getCell [[2]] i j = getCell [[1]] (f i) (f j) := by
  refine ⟨by decide, ?_⟩
  rintro ⟨f, hf⟩
  have h2 := hf 0 (by omega) 0 (by omega)
  have h4 : getCell [[1]] (f 0) (f 0) ≠ getCell [[2]] 0 0 := by
    rcases hf0 : f 0 with _ | k
    · decide
    · have h5 : getCell [[1]] (k + 1) (k + 1) = 0 := by
        unfold getCell
        rw [List.getD_cons_succ]
        simp
      rw [h5]
      decide
  exact h4 h2.symm

/-- C2 (amended): the door-test checker (`test_state_machine.py`, also used
verbatim by the credit-card test) accepts only if some bijection of state
indices pinning the initial states makes every adjacency cell exactly equal as
an integer multiplicity — so a reference self-loop is matched only by an
equal-multiplicity self-loop; the `state_machine_graph.py` checker compares
`supported_edges` instead and guarantees only presence equality. -/
theorem door_iso_accepts_only_exact_multiplicity (R C : MachineModel)
    (hri : R.initial_index < R.state_count)
    (hci : C.initial_index < C.state_count)
    (hacc : (DoorTest.isomorphic_up_to_renaming R C).fst = true) :
    R.state_count = C.state_count ∧
    DoorTest.total_edges R = DoorTest.total_edges C ∧
    ∃ f : Nat → Nat, f R.initial_index = C.initial_index ∧
      (∀ i, i < R.state_count → f i < R.state_count) ∧
      (∀ i, i < R.state_count → ∀ j, j < R.state_count → f i = f j → i = j) ∧
      (∀ i, i < R.state_count → ∀ j, j < R.state_count →
        getCell R.adjacency i j = getCell C.adjacency (f i) (f j)) := by
  unfold DoorTest.isomorphic_up_to_renaming at hacc
  by_cases h1 : R.state_count ≠ C.state_count
  · rw [if_pos h1] at hacc
    simp at hacc
  · rw [if_neg h1] at hacc
    have h1eq : R.state_count = C.state_count := not_not.mp h1
    by_cases h2 : DoorTest.total_edges R ≠ DoorTest.total_edges C
    · rw [if_pos h2] at hacc
      simp at hacc
    · rw [if_neg h2] at hacc
      have h2eq : DoorTest.total_edges R = DoorTest.total_edges C := not_not.mp h2
      by_cases h3 : permSearch R.adjacency C.adjacency R.state_count
          R.initial_index C.initial_index = true
      · exact ⟨h1eq, h2eq,
          permSearch_to_bijection hri (by rw [h1eq]; exact hci) h3⟩
      · rw [if_neg h3] at hacc
        simp at hacc

/-- C2 witness: the multiplicity-preserving bijection obtained from an accepted
pair with a double self-loop edge. -/
theorem door_iso_accepts_only_exact_multiplicity_witness :
    (⟨2, 0, [[0, 2], [0, 0]]⟩ : MachineModel).state_count
        = (⟨2, 0, [[0, 2], [0, 0]]⟩ : MachineModel).state_count ∧
    DoorTest.total_edges ⟨2, 0, [[0, 2], [0, 0]]⟩
        = DoorTest.total_edges ⟨2, 0, [[0, 2], [0, 0]]⟩ ∧
    ∃ f : Nat → Nat, f 0 = 0 ∧
      (∀ i, i < 2 → f i < 2) ∧
      (∀ i, i < 2 → ∀ j, j < 2 → f i = f j → i = j) ∧
      (∀ i, i < 2 → ∀ j, j < 2 →
        getCell [[0, 2], [0, 0]] i j = getCell [[0, 2], [0, 0]] (f i) (f j)) :=
  door_iso_accepts_only_exact_multiplicity ⟨2, 0, [[0, 2], [0, 0]]⟩
    ⟨2, 0, [[0, 2], [0, 0]]⟩ (by decide) (by decide) (by decide)

/-- C3 counterexample: the `state_machine_graph.py` checker (the claim's cited
lines 181–210) accepts a pair of models whose total edge counts differ (1 vs 2)
and reports no transition-count mismatch. -/
theorem transition_count_gate_counterexample :
    StateMachineGraph.isomorphic_up_to_renaming ⟨2, 0, [[0, 1], [0, 0]]⟩
        ⟨2, 0, [[0, 2], [0, 0]]⟩ = (true, "ok") ∧
    totalList [[0, 1], [0, 0]] ≠ totalList [[0, 2], [0, 0]] :=
  ⟨by decide, by decide⟩

/-- C3 (amended): the door-test and credit-card checker rejects with the
"Transition count mismatch" reason every pair of Models with equal state counts
whose total edge counts differ, and consequently judges any Model
non-isomorphic to the Model obtained from it by incrementing one in-range
adjacency cell; the `state_machine_graph.py` checker performs no edge-count
comparison and can accept models with differing totals. -/
theorem door_iso_transition_count_gate :
    (∀ R C : MachineModel, R.state_count = C.state_count →
      DoorTest.total_edges R ≠ DoorTest.total_edges C →
      DoorTest.isomorphic_up_to_renaming R C
        = (false, "Transition count mismatch")) ∧
    (∀ (M : MachineModel) (i j : Nat), i < M.adjacency.length →
      j < (M.adjacency.getD i []).length →
      DoorTest.isomorphic_up_to_renaming M
          ⟨M.state_count, M.initial_index, bumpCell M.adjacency i j⟩
        = (false, "Transition count mismatch")) := by
  have hmain : ∀ R C : MachineModel, R.state_count = C.state_count →
      DoorTest.total_edges R ≠ DoorTest.total_edges C →
      DoorTest.isomorphic_up_to_renaming R C
        = (false, "Transition count mismatch") := by
    intro R C h1 h2
    unfold DoorTest.isomorphic_up_to_renaming
    rw [if_neg (fun hne => hne h1), if_pos h2]
  refine ⟨hmain, ?_⟩
  intro M i j hi hj
  apply hmain
  · rfl
  · show totalList M.adjacency ≠ totalList (bumpCell M.adjacency i j)
    rw [totalList_bumpCell M.adjacency i j hi hj]
    omega

/-- C3 witness: the gate fires on a concrete pair with totals 0 and 1. -/
theorem door_iso_transition_count_gate_witness :
    DoorTest.isomorphic_up_to_renaming ⟨1, 0, [[0]]⟩ ⟨1, 0, [[1]]⟩
      = (false, "Transition count mismatch") :=
  door_iso_transition_count_gate.1 ⟨1, 0, [[0]]⟩ ⟨1, 0, [[1]]⟩ rfl (by decide)

/-- C4: a probed `(source_state, event)` pair whose event returns `False` while
the state read after differs from the state read before makes
`extract_machine_model` fail with the inconsistent-event-contract error (the
raised `AssertionError`), rather than recording a transition. -/
theorem extract_fails_on_inconsistent_contract (m : Machine) (s : Nat) (e : String)
    (hs : s < m.state_count) (hinit : m.initial < m.state_count)
    (he : e ∈ m.events)
    (hres : (m.probe s e).result = some false)
    (hch : (m.probe s e).after ≠ (m.probe s e).before) :
    ∃ ev b a, StateMachineGraph.extract_machine_model m
      = Except.error (ExtractError.inconsistentEventContract ev b a) := by
  unfold StateMachineGraph.extract_machine_model
  rw [if_neg (by omega : ¬ m.state_count = 0),
    if_neg (by omega : ¬ m.state_count ≤ m.initial)]
  have hmem : (s, e) ∈ StateMachineGraph.probePairs m := by
    unfold StateMachineGraph.probePairs
    rw [List.mem_flatMap]
    exact ⟨s, List.mem_range.mpr hs, List.mem_map.mpr ⟨e, he, rfl⟩⟩
  obtain ⟨ev, b, a, hloop⟩ := extractLoop_error_of_bad m
    (StateMachineGraph.probePairs m)
    (List.replicate m.state_count (List.replicate m.state_count 0)) s e hmem hres hch
  rw [hloop]
  exact ⟨ev, b, a, rfl⟩

/-- C4 witness: a two-state machine whose event claims failure but moves the
state from 0 to 1. -/
theorem extract_fails_on_inconsistent_contract_witness :
    ∃ ev b a, StateMachineGraph.extract_machine_model
        ⟨2, 0, ["x"], fun _ _ => ⟨0, some false, 1⟩⟩
      = Except.error (ExtractError.inconsistentEventContract ev b a) :=
  extract_fails_on_inconsistent_contract
    ⟨2, 0, ["x"], fun _ _ => ⟨0, some false, 1⟩⟩ 0 "x"
    (by decide) (by decide) (by decide) rfl (by decide)

/-- C5 counterexample: two Models with the same state count, identical (all
zero) adjacency matrices and different initial indices are judged isomorphic by
both checkers — the all-zero graph admits a presence- and
multiplicity-preserving bijection sending initial index 0 to initial index 1. -/
theorem initial_state_sensitivity_counterexample :
    StateMachineGraph.isomorphic_up_to_renaming ⟨2, 0, [[0, 0], [0, 0]]⟩
        ⟨2, 1, [[0, 0], [0, 0]]⟩ = (true, "ok") ∧
    DoorTest.isomorphic_up_to_renaming ⟨2, 0, [[0, 0], [0, 0]]⟩
        ⟨2, 1, [[0, 0], [0, 0]]⟩ = (true, "ok") :=
  ⟨by decide, by decide⟩

theorem exists_inverse_of_injOn_range (n : Nat) (f : Nat → Nat)
    (hf : ∀ i, i < n → f i < n)
    (hinj : ∀ i, i < n → ∀ j, j < n → f i = f j → i = j) :
    ∃ g : Nat → Nat, (∀ i, i < n → g i < n) ∧
      (∀ i, i < n → g (f i) = i) ∧ (∀ i, i < n → f (g i) = i) := by
  have hF : Function.Injective
      (fun x : Fin n => (⟨f x.val, hf x.val x.isLt⟩ : Fin n)) := by
    intro a b hab
    apply Fin.ext
    exact hinj a.val a.isLt b.val b.isLt (by simpa using congrArg Fin.val hab)
  have hsurj : Function.Surjective
      (fun x : Fin n => (⟨f x.val, hf x.val x.isLt⟩ : Fin n)) :=
    Finite.surjective_of_injective hF
  refine ⟨fun i => if h : i < n then (hsurj ⟨i, h⟩).choose.val else 0, ?_, ?_, ?_⟩
  · intro i hi
    dsimp only
    rw [dif_pos hi]
    exact (hsurj ⟨i, hi⟩).choose.isLt
  · intro i hi
    have hfi : f i < n := hf i hi
    dsimp only
    rw [dif_pos hfi]
    have hspec := (hsurj ⟨f i, hfi⟩).choose_spec
    have h2 : f (hsurj ⟨f i, hfi⟩).choose.val = f i := by
      simpa using congrArg Fin.val hspec
    exact hinj _ (hsurj ⟨f i, hfi⟩).choose.isLt i hi h2
  · intro i hi
    dsimp only
    rw [dif_pos hi]
    have hspec := (hsurj ⟨i, hi⟩).choose_spec
    simpa using congrArg Fin.val hspec

/-- C5 (amended): the initial states are pinned, but not every such pair is
rejected.  With valid initial indices, the `state_machine_graph.py` checker
accepts exactly when the state counts agree and some bijection of state indices
mapping the reference initial index to the candidate initial index preserves
every `supported_edges` cell.  Hence two Models with the same state count,
identical adjacency and different initial indices are judged non-isomorphic
precisely when no such bijection exists; symmetric graphs such as the all-zero
adjacency (see the counterexample) are accepted, so they are not always judged
non-isomorphic. -/
theorem graph_iso_pins_initial_states (R C : MachineModel)
    (hri : R.initial_index < R.state_count)
    (hci : C.initial_index < C.state_count) :
    (StateMachineGraph.isomorphic_up_to_renaming R C).fst = true ↔
      (R.state_count = C.state_count ∧
      ∃ f : Nat → Nat, f R.initial_index = C.initial_index ∧
        (∀ i, i < R.state_count → f i < R.state_count) ∧
        (∀ i, i < R.state_count → ∀ j, j < R.state_count → f i = f j → i = j) ∧
        (∀ i, i < R.state_count → ∀ j, j < R.state_count →
          getCell (StateMachineGraph.supported_edges R) i j
            = getCell (StateMachineGraph.supported_edges C) (f i) (f j))) := by
  constructor
  · intro hacc
    unfold StateMachineGraph.isomorphic_up_to_renaming at hacc
    by_cases h1 : R.state_count ≠ C.state_count
    · rw [if_pos h1] at hacc
      simp at hacc
    · rw [if_neg h1] at hacc
      have h1eq : R.state_count = C.state_count := not_not.mp h1
      by_cases h3 : permSearch (StateMachineGraph.supported_edges R)
          (StateMachineGraph.supported_edges C) R.state_count R.initial_index
          C.initial_index = true
      · exact ⟨h1eq, permSearch_to_bijection hri (by rw [h1eq]; exact hci) h3⟩
      · rw [if_neg h3] at hacc
        simp at hacc
  · rintro ⟨h1eq, f, hfi, hf, hinj, hcells⟩
    obtain ⟨g, hg, hgf, hfg⟩ :=
      exists_inverse_of_injOn_range R.state_count f hf hinj
    unfold StateMachineGraph.isomorphic_up_to_renaming
    rw [if_neg (fun hne => hne h1eq)]
    rw [if_pos (permSearch_of_bijection f g hri (by rw [h1eq]; exact hci)
      hf hg hgf hfg hfi hcells)]

/-- C5 witness: the acceptance of the all-zero pair with different initial
indices is equivalent to the existence of a pinned presence-preserving
bijection. -/
theorem graph_iso_pins_initial_states_witness :
    (StateMachineGraph.isomorphic_up_to_renaming ⟨2, 0, [[0, 0], [0, 0]]⟩
        ⟨2, 1, [[0, 0], [0, 0]]⟩).fst = true ↔
      ((⟨2, 0, [[0, 0], [0, 0]]⟩ : MachineModel).state_count
          = (⟨2, 1, [[0, 0], [0, 0]]⟩ : MachineModel).state_count ∧
      ∃ f : Nat → Nat, f 0 = 1 ∧
        (∀ i, i < 2 → f i < 2) ∧
        (∀ i, i < 2 → ∀ j, j < 2 → f i = f j → i = j) ∧
        (∀ i, i < 2 → ∀ j, j < 2 →
          getCell (StateMachineGraph.supported_edges ⟨2, 0, [[0, 0], [0, 0]]⟩) i j
            = getCell (StateMachineGraph.supported_edges ⟨2, 1, [[0, 0], [0, 0]]⟩)
                (f i) (f j))) :=
  graph_iso_pins_initial_states ⟨2, 0, [[0, 0], [0, 0]]⟩ ⟨2, 1, [[0, 0], [0, 0]]⟩
    (by decide) (by decide)

/-- C6: renaming invariance of the `state_machine_graph.py` checker — for any
well-formed Model with `n` states and any permutation `p` of the state indices
(with inverse `q`) that fixes the initial index, the Model and its relabelling
(any Model whose adjacency cell `(p i, p j)` equals the original cell `(i, j)`)
are judged isomorphic with the accepting verdict `(True, "ok")`. -/
theorem graph_iso_renaming_invariance (n init : Nat) (adj adj2 : List (List Nat))
    (p q : Nat → Nat)
    (hinit : init < n)
    (hp : ∀ i, i < n → p i < n) (hq : ∀ i, i < n → q i < n)
    (hqp : ∀ i, i < n → q (p i) = i) (hpq : ∀ i, i < n → p (q i) = i)
    (hpinit : p init = init)
    (hlen : adj.length = n) (hrows : ∀ row ∈ adj, row.length = n)
    (hlen2 : adj2.length = n) (hrows2 : ∀ row ∈ adj2, row.length = n)
    (hrelabel : ∀ i, i < n → ∀ j, j < n →
      getCell adj2 (p i) (p j) = getCell adj i j) :
    StateMachineGraph.isomorphic_up_to_renaming ⟨n, init, adj⟩ ⟨n, init, adj2⟩
      = (true, "ok") := by
  have hcellR : ∀ i, i < n → ∀ j, j < n →
      getCell (StateMachineGraph.supported_edges ⟨n, init, adj⟩) i j
        = if getCell adj i j > 0 then 1 else 0 := by
    intro i hi j hj
    unfold StateMachineGraph.supported_edges
    exact getCell_map_map (fun count => if count > 0 then 1 else 0) adj i j
      (by omega)
      (by rw [hrows (adj.getD i []) (getD_mem_of_lt adj i [] (by omega))]; omega)
  have hcellC : ∀ i, i < n → ∀ j, j < n →
      getCell (StateMachineGraph.supported_edges ⟨n, init, adj2⟩) i j
        = if getCell adj2 i j > 0 then 1 else 0 := by
    intro i hi j hj
    unfold StateMachineGraph.supported_edges
    exact getCell_map_map (fun count => if count > 0 then 1 else 0) adj2 i j
      (by omega)
      (by rw [hrows2 (adj2.getD i []) (getD_mem_of_lt adj2 i [] (by omega))]; omega)
  have hps : permSearch (StateMachineGraph.supported_edges ⟨n, init, adj⟩)
      (StateMachineGraph.supported_edges ⟨n, init, adj2⟩) n init init = true := by
    apply permSearch_of_bijection p q hinit hinit hp hq hqp hpq hpinit
    intro i hi j hj
    rw [hcellR i hi j hj, hcellC (p i) (hp i hi) (p j) (hp j hj)]
    rw [hrelabel i hi j hj]
  unfold StateMachineGraph.isomorphic_up_to_renaming
  rw [if_neg (by simp : ¬ (n ≠ n)), if_pos hps]

/-- C6 witness: a 3-cycle relabelled by the transposition of states 1 and 2. -/
theorem graph_iso_renaming_invariance_witness :
    StateMachineGraph.isomorphic_up_to_renaming
        ⟨3, 0, [[0, 1, 0], [0, 0, 1], [1, 0, 0]]⟩
        ⟨3, 0, [[0, 0, 1], [1, 0, 0], [0, 1, 0]]⟩ = (true, "ok") :=
  graph_iso_renaming_invariance 3 0 [[0, 1, 0], [0, 0, 1], [1, 0, 0]]
    [[0, 0, 1], [1, 0, 0], [0, 1, 0]]
    (fun i => if i = 1 then 2 else if i = 2 then 1 else i)
    (fun i => if i = 1 then 2 else if i = 2 then 1 else i)
    (by decide) (by decide) (by decide) (by decide) (by decide) (by decide)
    (by decide) (by decide) (by decide) (by decide) (by decide)

/-- C7: the Set Matcher accept/reject verdict is invariant under reordering
either the reference Model list or the candidate Model list. -/
theorem machine_sets_verdict_reorder_invariant
    (refs cands refs2 cands2 : List MachineModel)
    (hr : refs.Perm refs2) (hc : cands.Perm cands2) :
    (StateMachineGraph.machine_sets_isomorphic refs cands).fst
      = (StateMachineGraph.machine_sets_isomorphic refs2 cands2).fst := by
  have hlr := hr.length_eq
  have hlc := hc.length_eq
  by_cases hne : refs.length = cands.length
  · have hne2 : refs2.length = cands2.length := by omega
    unfold StateMachineGraph.machine_sets_isomorphic
    rw [if_neg (not_not.mpr hne), if_neg (not_not.mpr hne2)]
    cases hss : StateMachineGraph.setSearch refs cands with
    | true =>
      have h2 := setSearch_transport hr hc (by omega) hss
      simp [hss, h2]
    | false =>
      cases hss2 : StateMachineGraph.setSearch refs2 cands2 with
      | false => simp [hss, hss2]
      | true =>
        have h3 := setSearch_transport hr.symm hc.symm (by omega) hss2
        rw [h3] at hss
        exact absurd hss (by simp)
  · have hne2 : refs2.length ≠ cands2.length := by omega
    unfold StateMachineGraph.machine_sets_isomorphic
    rw [if_pos hne, if_pos hne2]

/-- C7 witness: swapping the reference list does not change the verdict. -/
theorem machine_sets_verdict_reorder_invariant_witness :
    (StateMachineGraph.machine_sets_isomorphic
        [⟨1, 0, [[0]]⟩, ⟨2, 0, [[0, 1], [0, 0]]⟩]
        [⟨1, 0, [[0]]⟩, ⟨2, 0, [[0, 1], [0, 0]]⟩]).fst
      = (StateMachineGraph.machine_sets_isomorphic
        [⟨2, 0, [[0, 1], [0, 0]]⟩, ⟨1, 0, [[0]]⟩]
        [⟨1, 0, [[0]]⟩, ⟨2, 0, [[0, 1], [0, 0]]⟩]).fst :=
  machine_sets_verdict_reorder_invariant _ _ _ _ (by decide) (by decide)

/-- C8: event discovery keeps an operation name in the returned EventSet iff
some inspected operation has that name and is public (no leading underscore),
not excluded, not a `get…FullName` accessor, takes only `self`, and returns a
boolean without raising on a fresh instance; and discovery fails with the
"No event methods discovered" error iff no operation qualifies. -/
theorem discover_event_names_spec (ops : List OpSpec) (excluded : List String) :
    (∀ l, StateMachineGraph.discover_event_names ops excluded = Except.ok l →
      ∀ nm, nm ∈ l ↔
        ∃ op, op ∈ ops ∧ op.name = nm ∧ specQualifiesEvent excluded op) ∧
    (StateMachineGraph.discover_event_names ops excluded
        = Except.error ("No event methods discovered") ↔
      ¬ ∃ op, op ∈ ops ∧ specQualifiesEvent excluded op) :=
  ⟨fun l hok nm => discover_event_names_mem ops excluded l hok nm,
   discover_event_names_error_iff ops excluded⟩

/-- C8 witness: a public boolean-returning operation is kept while an
underscore-prefixed one is dropped. -/
theorem discover_event_names_spec_witness :
    "open" ∈ ["open"] ↔
      ∃ op, op ∈ [(⟨"open", 1, some (some true)⟩ : OpSpec),
          ⟨"_helper", 1, some (some true)⟩] ∧
        op.name = "open" ∧ specQualifiesEvent [] op :=
  (discover_event_names_spec
      [⟨"open", 1, some (some true)⟩, ⟨"_helper", 1, some (some true)⟩] []).1
    ["open"] (by decide) "open"

/-- C9: a probe whose event invocation returns a non-boolean value is silently
skipped in the door-task extraction loop: the adjacency matrix is returned
unchanged and no error is raised, whatever the before/after states are. -/
theorem extract_skips_non_boolean_probe (adj : List (List Nat)) (s : Nat)
    (e : String) (out : ProbeOutcome) (h : out.result = none) :
    StateMachineGraph.extractStep adj s e out = Except.ok adj := by
  simp [StateMachineGraph.extractStep, h]

/-- C9 witness: the skip on a probe whose state changed (0 to 1) while the
event returned a non-boolean. -/
theorem extract_skips_non_boolean_probe_witness :
    StateMachineGraph.extractStep [[0, 0], [0, 0]] 0 "e" ⟨0, none, 1⟩
      = Except.ok [[0, 0], [0, 0]] :=
  extract_skips_non_boolean_probe [[0, 0], [0, 0]] 0 "e" ⟨0, none, 1⟩ rfl

/-- C10: on two empty Model lists the Set Matcher returns the accepting verdict
`(True, "ok")`. -/
theorem machine_sets_empty_ok :
    StateMachineGraph.machine_sets_isomorphic [] [] = (true, "ok") := by decide
